import Mathlib

/-!
Verification of the core of `fake_wechat_version.py`: the chunked memory
scanner `scan_for_offsets`, the validate-and-write patch loop inside
`fake_version`, the module locator loop inside `fake_version`, and the
version codec `convert_version_to_hex`.

Process memory is modelled as a total byte map `Int → Nat` (the target
process's address space), together with a readability oracle
`ok : Int → Nat → Bool` deciding whether `read_bytes(addr, size)` succeeds
(`pymem` raises `MemoryReadError` exactly when it fails).  Python strings
are modelled as `List Char`, Python ints as `Int` (`Nat` where the source
guarantees non-negativity).
-/

namespace FakeWechat

/-- Model of `pymem.Pymem.read_bytes(addr, n)`: returns the `n` bytes at
`addr` when the region is readable, otherwise fails (`MemoryReadError`). -/
def read_bytes (m : Int → Nat) (ok : Int → Nat → Bool) (addr : Int) (n : Nat) :
    Option (List Nat) :=
  if ok addr n then some ((List.range n).map fun i : Nat => m (addr + (i : Int))) else none

/-- Model of Python `value.to_bytes(n, byteorder="little")`. -/
def to_bytes_le (value n : Nat) : List Nat :=
  (List.range n).map fun i => value / 256 ^ i % 256

/-- Model of `range(0, total_size, chunk_size)` (the loop header of
`scan_for_offsets`, line 43); requires `chunk_size > 0` exactly as Python
does. -/
def chunkStarts (total chunk : Nat) : List Nat :=
  (List.range ((total + chunk - 1) / chunk)).map (· * chunk)

/-- The loop body of `scan_for_offsets` (lines 43-57), recursing over the
remaining chunk starts.  `tail` is the running `previous_chunk_tail`.
Note the faithful details: a failed read `continue`s WITHOUT resetting
`previous_chunk_tail`; the searched buffer is `previous_chunk_tail +
memory`; a found match appends `chunk_start + i - len(previous_chunk_tail)`;
the new tail is `memory[-overlap_size:]` with `overlap_size = 3`. -/
def scanLoop (m : Int → Nat) (ok : Int → Nat → Bool) (base : Int)
    (needle : List Nat) (total chunk : Nat) :
    List Nat → List Nat → List Int
  | [], _tail => []
  | s :: rest, tail =>
    match read_bytes m ok (base + (s : Int)) (min chunk (total - s)) with
    | none => scanLoop m ok base needle total chunk rest tail
    | some bytes =>
      let memory := tail ++ bytes
      ((List.range (memory.length + 1 - needle.length)).filterMap fun i : Nat =>
          if (memory.drop i).take needle.length = needle then
            some ((s : Int) + (i : Int) - (tail.length : Int))
          else none)
        ++ scanLoop m ok base needle total chunk rest
            (memory.drop (memory.length - (needle.length - 1)))

/-- Model of `scan_for_offsets(wx, base_address, hex_value, total_size,
chunk_size)` (lines 23-59), with the source's default sizes. -/
def scan_for_offsets (m : Int → Nat) (ok : Int → Nat → Bool) (base : Int)
    (hex_value : Nat) (total : Nat := 0x10000000) (chunk : Nat := 0x1000000) :
    List Int :=
  scanLoop m ok base (to_bytes_le hex_value 4) total chunk
    (chunkStarts total chunk) []

/-- `occursAt buf needle o` holds when the needle's bytes occur in the
region at relative offsets `o, o+1, ..., o+len-1`. -/
def occursAt (buf : Nat → Nat) (needle : List Nat) (o : Nat) : Bool :=
  decide ((List.range' o needle.length).map buf = needle)

/-- The ascending list of needle occurrences at offsets in `[a, a + n)`. -/
def specSeg (buf : Nat → Nat) (needle : List Nat) (a n : Nat) : List Int :=
  ((List.range' a n).filter (occursAt buf needle)).map (fun o => Int.ofNat o)

/-- The ascending list of all needle occurrences that fit inside a region
of `total` bytes: offsets `o` with `o + len ≤ total`. -/
def specOffsets (buf : Nat → Nat) (needle : List Nat) (total : Nat) :
    List Int :=
  specSeg buf needle 0 (total + 1 - needle.length)

/-- Model of `pymem.Pymem.read_uint(addr)`: the little-endian 32-bit value
assembled from the 4 bytes at `addr`. -/
def read_uint (m : Int → Nat) (addr : Int) : Nat :=
  m addr + m (addr + 1) * 256 + m (addr + 2) * 256 ^ 2 + m (addr + 3) * 256 ^ 3

/-- Model of `pymem.Pymem.write_uint(addr, v)`: stores the 4 little-endian
bytes of `v` at `addr, ..., addr+3`. -/
def write_uint (m : Int → Nat) (addr : Int) (v : Nat) : Int → Nat :=
  fun x =>
    if x = addr then v % 256
    else if x = addr + 1 then v / 256 % 256
    else if x = addr + 2 then v / 256 ^ 2 % 256
    else if x = addr + 3 then v / 256 ^ 3 % 256
    else m x

/-- Result of the patch loop: final process memory, the `(address, value)`
writes performed in order, and the offset at which
`Exception("传入的当前版本不匹配")` was raised, if any. -/
structure PatchResult where
  mem : Int → Nat
  writes : List (Int × Nat)
  failed : Option Int

/-- The patch loop of `fake_version` (lines 103-111): for each candidate
offset, re-read the 4-byte value; equal to `target_hex` → skip; not equal
to `default_hex` → raise (nothing further processed, no rollback);
otherwise write `target_hex` there. -/
def patchRun (base : Int) (default_hex target_hex : Nat) :
    List Int → (Int → Nat) → PatchResult
  | [], m => ⟨m, [], none⟩
  | o :: rest, m =>
    let addr := base + o
    let v := read_uint m addr
    if v = target_hex then patchRun base default_hex target_hex rest m
    else if v ≠ default_hex then ⟨m, [], some o⟩
    else
      let r := patchRun base default_hex target_hex rest
        (write_uint m addr target_hex)
      ⟨r.mem, (addr, target_hex) :: r.writes, r.failed⟩

/-- Replay a list of `(address, value)` 4-byte writes in order. -/
def applyWrites (m : Int → Nat) : List (Int × Nat) → (Int → Nat)
  | [] => m
  | (a, v) :: rest => applyWrites (write_uint m a v) rest

/-- One entry of `wx.list_modules()`: its `filename` (path string) and
`lpBaseOfDll` (module base address). -/
structure Module where
  filename : List Char
  lpBaseOfDll : Int

/-- The `"WeChatWin.dll"` literal of line 88. -/
def wechatWinDll : List Char := "WeChatWin.dll".toList

/-- The module-locator loop of `fake_version` (lines 84-90): `dll_base`
starts at `0`; the first module whose path ends with `"WeChatWin.dll"`
sets it and `break`s; if none matches it remains `0`. -/
def find_dll_base : List Module → Int
  | [] => 0
  | md :: rest =>
    if wechatWinDll.isSuffixOf md.filename then md.lpBaseOfDll
    else find_dll_base rest

/-- Outcome of `fake_version`: normal completion, the
`Exception("未找到目标偏移地址，请确认版本是否正确")` raised on an empty scan
(line 98), or the version-mismatch exception from the patch loop
(line 109).  Each constructor carries the process memory at that point
(and the writes performed). -/
inductive FVResult where
  | done (m : Int → Nat) (writes : List (Int × Nat))
  | offsetsNotFound (m : Int → Nat)
  | versionMismatch (m : Int → Nat) (writes : List (Int × Nat)) (offset : Int)

/-- Model of `fake_version` (lines 62-111): locate `WeChatWin.dll`, scan
for `default_hex`, raise if no offsets, then run the patch loop.
`default_hex` stands for `int(current_version, 16)` (line 94) and
`target_hex` for `int(convert_version_to_hex(target_version), 16)`
(line 101); the scan sizes — the `scan_for_offsets` defaults in the
source — are explicit parameters here.  The trailing prints / window
restore of lines 113-116 are outside the model. -/
def fake_version (modules : List Module) (m : Int → Nat)
    (ok : Int → Nat → Bool) (default_hex target_hex : Nat)
    (total chunk : Nat) : FVResult :=
  let dll_base := find_dll_base modules
  let offsets := scan_for_offsets m ok dll_base default_hex total chunk
  if offsets = [] then .offsetsNotFound m
  else
    let r := patchRun dll_base default_hex target_hex offsets m
    match r.failed with
    | none => .done r.mem r.writes
    | some o => .versionMismatch r.mem r.writes o

/-- Model of Python `str.split(sep)` for a single-character separator
(used as `version.split(".")`, line 127): `acc` is the current piece,
reversed. -/
def splitOnAux (sep : Char) : List Char → List Char → List (List Char)
  | [], acc => [acc.reverse]
  | c :: rest, acc =>
    if c = sep then acc.reverse :: splitOnAux sep rest []
    else splitOnAux sep rest (c :: acc)

/-- `version.split(".")`. -/
def splitOnDot (l : List Char) : List (List Char) := splitOnAux '.' l []

/-- The digit-string core of Python `int(s)`: succeeds on a non-empty
all-digit string, with the usual decimal value. -/
def parseDigits (l : List Char) : Option Nat :=
  if l ≠ [] ∧ l.all (fun ch => ch.isDigit) then
    some (l.foldl (fun acc ch => 10 * acc + (ch.toNat - 48)) 0)
  else none

/-- Model of Python `int(s)` on the forms reachable here: an optional
single leading sign followed by decimal digits (`ValueError` = `none`;
whitespace/underscore forms are not modelled). -/
def pyInt (s : List Char) : Option Int :=
  match s with
  | [] => none
  | c :: rest =>
    if c = '-' then (parseDigits rest).map (fun n : Nat => -(n : Int))
    else if c = '+' then (parseDigits rest).map (fun n : Nat => (n : Int))
    else (parseDigits (c :: rest)).map (fun n : Nat => (n : Int))

/-- Model of Python `f"{n:x}"` for an int `n`: lowercase hex digits, a
leading `-` for negative values.  `Nat.toDigits 16` produces exactly
Python's lowercase hex digit string. -/
def toHexStr (n : Int) : List Char :=
  if n < 0 then '-' :: Nat.toDigits 16 n.natAbs else Nat.toDigits 16 n.toNat

/-- Model of Python `str.zfill(width)`: left-pad with `'0'` to `width`,
keeping a leading sign in place. -/
def zfill (l : List Char) (width : Nat) : List Char :=
  match l with
  | [] => List.replicate width '0'
  | c :: rest =>
    if c = '-' ∨ c = '+' then
      c :: (List.replicate (width - rest.length - 1) '0' ++ rest)
    else List.replicate (width - l.length) '0' ++ l

/-- The generator expression of line 128-130:
`f"{int(part):x}".zfill(1 if i == 0 else 2) for i, part in
enumerate(parts)`, joined; the first failing `int(part)` raises
(`none`). -/
def encodeParts (i : Nat) : List (List Char) → Option (List Char)
  | [] => some []
  | p :: rest => do
    let n ← pyInt p
    let tl ← encodeParts (i + 1) rest
    return zfill (toHexStr n) (if i = 0 then 1 else 2) ++ tl

/-- Model of `convert_version_to_hex(version)` (lines 119-131):
`"6" + "".join(...)` over the dot-separated parts.  Note the source
never checks that there are exactly 4 parts. -/
def convert_version_to_hex (version : List Char) : Option (List Char) :=
  (encodeParts 0 (splitOnDot version)).map (fun s => '6' :: s)

/-! ### Concrete fixtures used by witnesses and counterexamples -/

/-- A 12-byte region `[9,9,1,2, 0,0,0,0, 3,4,9,9]` (zero outside). -/
def memStale : Int → Nat := fun a => [9, 9, 1, 2, 0, 0, 0, 0, 3, 4, 9, 9].getD a.toNat 0

/-- Readability oracle whose read fails exactly at address 4 (the second
4-byte window of a 12-byte scan with chunk size 4). -/
def okStale : Int → Nat → Bool := fun a _ => decide (a ≠ 4)

/-- All-zero memory. -/
def memZero : Int → Nat := fun _ => 0

/-- Everything readable. -/
def okAll : Int → Nat → Bool := fun _ _ => true

/-- An 8-byte region `[0,0,0,1,2,3,4,0]`: the needle `[1,2,3,4]` sits at
offset 3, spanning the last byte of chunk 0 and the first 3 bytes of
chunk 1 for chunk size 4. -/
def memSpan : Int → Nat := fun a => [0, 0, 0, 1, 2, 3, 4, 0].getD a.toNat 0

/-- A 12-byte region with the needle `[1,2,3,4]` wholly inside window 1
(offsets 4-7) and again wholly inside window 2 (offsets 8-11). -/
def memSkip : Int → Nat := fun a => [0, 0, 0, 0, 1, 2, 3, 4, 1, 2, 3, 4].getD a.toNat 0

/-- A module whose path does not end with `"WeChatWin.dll"`. -/
def otherModule : Module := ⟨"C:\\Windows\\other.dll".toList, 4096⟩

/-- A module whose path ends with `"WeChatWin.dll"`. -/
def wcModule : Module := ⟨"C:\\WeChat\\WeChatWin.dll".toList, 8192⟩

/-- A 16-byte region holding the little-endian bytes of `0x63090621` at
offset 4 and of `0x63090c33` at offset 8, zero elsewhere. -/
def memPatch : Int → Nat :=
  fun a => [0, 0, 0, 0, 0x21, 0x06, 0x09, 0x63, 0x33, 0x0c, 0x09, 0x63, 0, 0, 0, 0].getD a.toNat 0

end FakeWechat

namespace FakeWechat

/-! ### General helper lemmas -/

lemma range'_take (a : Nat) : ∀ (n k : Nat), (List.range' a n).take k = List.range' a (min n k) := by
  intro n
  induction n generalizing a with
  | zero => intro k; simp
  | succ n ih =>
    intro k
    cases k with
    | zero => simp
    | succ k =>
      rw [List.range'_succ, List.take_succ_cons, ih (a + 1) k, Nat.succ_min_succ,
        List.range'_succ]

lemma range'_drop (a : Nat) : ∀ (n k : Nat), (List.range' a n).drop k = List.range' (a + k) (n - k) := by
  intro n
  induction n generalizing a with
  | zero => intro k; simp
  | succ n ih =>
    intro k
    cases k with
    | zero => simp
    | succ k =>
      rw [List.range'_succ, List.drop_succ_cons, ih (a + 1) k, Nat.succ_sub_succ]
      ring_nf

lemma filterMap_if_eq_map_filter (P : Nat → Bool) (g : Nat → Int) :
    ∀ l : List Nat,
      l.filterMap (fun o => if P o then some (g o) else none) = (l.filter P).map g := by
  intro l
  induction l with
  | nil => rfl
  | cons x xs ih =>
    by_cases h : P x <;> simp [List.filterMap_cons, List.filter_cons, h, ih]

lemma range'_split (a n₁ n₂ : Nat) :
    List.range' a (n₁ + n₂) = List.range' a n₁ ++ List.range' (a + n₁) n₂ := by
  have h := List.range'_append a n₁ n₂ 1
  simp only [one_mul] at h
  rw [Nat.add_comm n₁ n₂, ← h]

lemma specSeg_append (buf : Nat → Nat) (needle : List Nat) (a n₁ n₂ : Nat) :
    specSeg buf needle a n₁ ++ specSeg buf needle (a + n₁) n₂ =
      specSeg buf needle a (n₁ + n₂) := by
  unfold specSeg
  rw [range'_split, List.filter_append, List.map_append]

/-! ### Patch-loop lemmas -/

lemma patchRun_cons_skip (base : Int) (d t : Nat) (o : Int) (rest : List Int)
    (m : Int → Nat) (h : read_uint m (base + o) = t) :
    patchRun base d t (o :: rest) m = patchRun base d t rest m := by
  simp [patchRun, h]

lemma patchRun_cons_fail (base : Int) (d t : Nat) (o : Int) (rest : List Int)
    (m : Int → Nat) (h1 : read_uint m (base + o) ≠ t)
    (h2 : read_uint m (base + o) ≠ d) :
    patchRun base d t (o :: rest) m = ⟨m, [], some o⟩ := by
  simp [patchRun, h1, h2]

lemma patchRun_cons_write (base : Int) (d t : Nat) (o : Int) (rest : List Int)
    (m : Int → Nat) (h1 : read_uint m (base + o) ≠ t)
    (h2 : read_uint m (base + o) = d) :
    patchRun base d t (o :: rest) m =
      ⟨(patchRun base d t rest (write_uint m (base + o) t)).mem,
        (base + o, t) :: (patchRun base d t rest (write_uint m (base + o) t)).writes,
        (patchRun base d t rest (write_uint m (base + o) t)).failed⟩ := by
  have hdt : d ≠ t := h2 ▸ h1
  simp [patchRun, h2, hdt]

lemma patchRun_mem_eq (base : Int) (d t : Nat) :
    ∀ (offsets : List Int) (m : Int → Nat),
      (patchRun base d t offsets m).mem =
        applyWrites m (patchRun base d t offsets m).writes := by
  intro offsets
  induction offsets with
  | nil => intro m; simp [patchRun, applyWrites]
  | cons o rest ih =>
    intro m
    by_cases h1 : read_uint m (base + o) = t
    · rw [patchRun_cons_skip base d t o rest m h1]; exact ih m
    · by_cases h2 : read_uint m (base + o) = d
      · rw [patchRun_cons_write base d t o rest m h1 h2]
        simpa [applyWrites] using ih (write_uint m (base + o) t)
      · rw [patchRun_cons_fail base d t o rest m h1 h2]
        simp [applyWrites]

lemma patchRun_writes_mem (base : Int) (d t : Nat) :
    ∀ (offsets : List Int) (m : Int → Nat) (p : Int × Nat),
      p ∈ (patchRun base d t offsets m).writes →
        p.2 = t ∧ ∃ o ∈ offsets, p.1 = base + o := by
  intro offsets
  induction offsets with
  | nil => intro m p hp; simp [patchRun] at hp
  | cons o rest ih =>
    intro m p hp
    by_cases h1 : read_uint m (base + o) = t
    · rw [patchRun_cons_skip base d t o rest m h1] at hp
      obtain ⟨hpt, o', ho', ha⟩ := ih m p hp
      exact ⟨hpt, o', List.mem_cons_of_mem _ ho', ha⟩
    · by_cases h2 : read_uint m (base + o) = d
      · rw [patchRun_cons_write base d t o rest m h1 h2] at hp
        rcases List.mem_cons.mp hp with hp | hp
        · subst hp; exact ⟨rfl, o, List.mem_cons_self _ _, rfl⟩
        · obtain ⟨hpt, o', ho', ha⟩ := ih (write_uint m (base + o) t) p hp
          exact ⟨hpt, o', List.mem_cons_of_mem _ ho', ha⟩
      · rw [patchRun_cons_fail base d t o rest m h1 h2] at hp
        simp at hp

lemma patchRun_writes_spec (base : Int) (d t : Nat) :
    ∀ (offsets : List Int) (m : Int → Nat) (k : Nat) (av : Int × Nat),
      (patchRun base d t offsets m).writes[k]? = some av →
      av.2 = t ∧ (∃ o ∈ offsets, av.1 = base + o)
      ∧ read_uint (applyWrites m ((patchRun base d t offsets m).writes.take k)) av.1 = d := by
  intro offsets
  induction offsets with
  | nil => intro m k av h; simp [patchRun] at h
  | cons o rest ih =>
    intro m k av h
    by_cases h1 : read_uint m (base + o) = t
    · rw [patchRun_cons_skip base d t o rest m h1] at h ⊢
      obtain ⟨hpt, ⟨o', ho', ha⟩, hread⟩ := ih m k av h
      exact ⟨hpt, ⟨o', List.mem_cons_of_mem _ ho', ha⟩, hread⟩
    · by_cases h2 : read_uint m (base + o) = d
      · rw [patchRun_cons_write base d t o rest m h1 h2] at h ⊢
        simp only at h ⊢
        cases k with
        | zero =>
          simp only [List.getElem?_cons_zero, Option.some_inj] at h
          subst h
          refine ⟨rfl, ⟨o, List.mem_cons_self _ _, rfl⟩, ?_⟩
          simpa [applyWrites] using h2
        | succ k =>
          simp only [List.getElem?_cons_succ] at h
          obtain ⟨hpt, ⟨o', ho', ha⟩, hread⟩ := ih (write_uint m (base + o) t) k av h
          refine ⟨hpt, ⟨o', List.mem_cons_of_mem _ ho', ha⟩, ?_⟩
          simpa [applyWrites, List.take_succ_cons] using hread
      · rw [patchRun_cons_fail base d t o rest m h1 h2] at h
        simp at h

lemma patchRun_failed_spec (base : Int) (d t : Nat) :
    ∀ (offsets : List Int) (m : Int → Nat) (o : Int),
      (patchRun base d t offsets m).failed = some o →
      ∃ k, ∃ hk : k < offsets.length, offsets.get ⟨k, hk⟩ = o
        ∧ read_uint (patchRun base d t offsets m).mem (base + o) ≠ t
        ∧ read_uint (patchRun base d t offsets m).mem (base + o) ≠ d
        ∧ patchRun base d t (offsets.take (k + 1)) m = patchRun base d t offsets m := by
  intro offsets
  induction offsets with
  | nil => intro m o h; simp [patchRun] at h
  | cons o₀ rest ih =>
    intro m o h
    by_cases h1 : read_uint m (base + o₀) = t
    · rw [patchRun_cons_skip base d t o₀ rest m h1] at h ⊢
      obtain ⟨k, hk, hg, hnt, hnd, heq⟩ := ih m o h
      refine ⟨k + 1, by simpa using Nat.succ_lt_succ hk, by simpa using hg, hnt, hnd, ?_⟩
      rw [List.take_succ_cons, patchRun_cons_skip base d t o₀ _ m h1, heq]
    · by_cases h2 : read_uint m (base + o₀) = d
      · rw [patchRun_cons_write base d t o₀ rest m h1 h2] at h ⊢
        simp only at h
        obtain ⟨k, hk, hg, hnt, hnd, heq⟩ := ih (write_uint m (base + o₀) t) o h
        refine ⟨k + 1, by simpa using Nat.succ_lt_succ hk, by simpa using hg, hnt, hnd, ?_⟩
        rw [List.take_succ_cons, patchRun_cons_write base d t o₀ _ m h1 h2, heq]
      · rw [patchRun_cons_fail base d t o₀ rest m h1 h2] at h ⊢
        simp only at h
        cases h
        refine ⟨0, by simp, rfl, h1, h2, ?_⟩
        rw [List.take_succ_cons, List.take_zero]
        exact patchRun_cons_fail base d t o₀ [] m h1 h2

lemma patchRun_frame (base : Int) (d t : Nat) :
    ∀ (offsets : List Int) (m : Int → Nat) (x : Int),
      (∀ o ∈ offsets, ¬(base + o ≤ x ∧ x < base + o + 4)) →
      (patchRun base d t offsets m).mem x = m x := by
  intro offsets
  induction offsets with
  | nil => intro m x _; simp [patchRun]
  | cons o rest ih =>
    intro m x hx
    have hxo : ¬(base + o ≤ x ∧ x < base + o + 4) := hx o (List.mem_cons_self _ _)
    have hxrest : ∀ o' ∈ rest, ¬(base + o' ≤ x ∧ x < base + o' + 4) :=
      fun o' ho' => hx o' (List.mem_cons_of_mem _ ho')
    by_cases h1 : read_uint m (base + o) = t
    · rw [patchRun_cons_skip base d t o rest m h1]; exact ih m x hxrest
    · by_cases h2 : read_uint m (base + o) = d
      · rw [patchRun_cons_write base d t o rest m h1 h2]
        have hwx : write_uint m (base + o) t x = m x := by
          simp only [write_uint]
          rw [if_neg (by omega), if_neg (by omega), if_neg (by omega), if_neg (by omega)]
        simp only
        rw [ih (write_uint m (base + o) t) x hxrest, hwx]
      · rw [patchRun_cons_fail base d t o rest m h1 h2]

/-! ### Scanner lemmas -/

lemma read_bytes_ok (m : Int → Nat) (ok : Int → Nat → Bool) (addr : Int) (n : Nat)
    (h : ok addr n = true) :
    read_bytes m ok addr n = some ((List.range n).map fun i : Nat => m (addr + (i : Int))) := by
  simp [read_bytes, h]

lemma scanLoop_cons_ok (m : Int → Nat) (ok : Int → Nat → Bool) (base : Int)
    (needle : List Nat) (total chunk s : Nat) (rest : List Nat) (tail : List Nat)
    (h : ok (base + (s : Int)) (min chunk (total - s)) = true) :
    scanLoop m ok base needle total chunk (s :: rest) tail =
      ((List.range
            ((tail ++ (List.range (min chunk (total - s))).map
                (fun i : Nat => m (base + (s : Int) + (i : Int)))).length + 1 - needle.length)).filterMap
          fun i =>
            if ((tail ++ (List.range (min chunk (total - s))).map
                  (fun i : Nat => m (base + (s : Int) + (i : Int)))).drop i).take needle.length
                = needle then
              some ((s : Int) + (i : Int) - (tail.length : Int))
            else none)
        ++ scanLoop m ok base needle total chunk rest
            ((tail ++ (List.range (min chunk (total - s))).map
                (fun i : Nat => m (base + (s : Int) + (i : Int)))).drop
              ((tail ++ (List.range (min chunk (total - s))).map
                  (fun i : Nat => m (base + (s : Int) + (i : Int)))).length - (needle.length - 1))) := by
  rw [show scanLoop m ok base needle total chunk (s :: rest) tail =
      match read_bytes m ok (base + (s : Int)) (min chunk (total - s)) with
      | none => scanLoop m ok base needle total chunk rest tail
      | some bytes =>
        ((List.range ((tail ++ bytes).length + 1 - needle.length)).filterMap fun i =>
            if ((tail ++ bytes).drop i).take needle.length = needle then
              some ((s : Int) + (i : Int) - (tail.length : Int))
            else none)
          ++ scanLoop m ok base needle total chunk rest
              ((tail ++ bytes).drop ((tail ++ bytes).length - (needle.length - 1)))
    from rfl]
  rw [read_bytes_ok m ok (base + (s : Int)) (min chunk (total - s)) h]

lemma scanLoop_cons_fail (m : Int → Nat) (ok : Int → Nat → Bool) (base : Int)
    (needle : List Nat) (total chunk s : Nat) (rest : List Nat) (tail : List Nat)
    (h : ok (base + (s : Int)) (min chunk (total - s)) = false) :
    scanLoop m ok base needle total chunk (s :: rest) tail =
      scanLoop m ok base needle total chunk rest tail := by
  rw [show scanLoop m ok base needle total chunk (s :: rest) tail =
      match read_bytes m ok (base + (s : Int)) (min chunk (total - s)) with
      | none => scanLoop m ok base needle total chunk rest tail
      | some bytes =>
        ((List.range ((tail ++ bytes).length + 1 - needle.length)).filterMap fun i =>
            if ((tail ++ bytes).drop i).take needle.length = needle then
              some ((s : Int) + (i : Int) - (tail.length : Int))
            else none)
          ++ scanLoop m ok base needle total chunk rest
              ((tail ++ bytes).drop ((tail ++ bytes).length - (needle.length - 1)))
    from rfl]
  have hnone : read_bytes m ok (base + (s : Int)) (min chunk (total - s)) = none := by
    simp [read_bytes, h]
  rw [hnone]

lemma map_range_chunk (m : Int → Nat) (base : Int) (s n : Nat) :
    (List.range n).map (fun i : Nat => m (base + (s : Int) + (i : Int))) =
      (List.range' s n).map (fun o : Nat => m (base + (o : Int))) := by
  rw [List.range'_eq_map_range, List.map_map]
  apply List.map_congr_left
  intro i _
  show m (base + (s : Int) + (i : Int)) = m (base + ((s + i : Nat) : Int))
  congr 1
  push_cast
  ring

lemma map_range'_append (buf : Nat → Nat) (a tl csize s : Nat) (hs : a + tl = s) :
    (List.range' a tl).map buf ++ (List.range' s csize).map buf =
      (List.range' a (tl + csize)).map buf := by
  subst hs
  rw [← List.map_append, ← range'_split]

lemma map_range'_drop (buf : Nat → Nat) (a L j : Nat) :
    ((List.range' a L).map buf).drop j = (List.range' (a + j) (L - j)).map buf := by
  rw [← List.map_drop, range'_drop]

lemma map_range'_take (buf : Nat → Nat) (a L j : Nat) :
    ((List.range' a L).map buf).take j = (List.range' a (min L j)).map buf := by
  rw [← List.map_take, range'_take]

lemma start_lt_total (total chunk k : Nat) (hch : 0 < chunk)
    (hk : k < (total + chunk - 1) / chunk) : k * chunk < total := by
  have h1 : ((total + chunk - 1) / chunk) * chunk ≤ total + chunk - 1 :=
    Nat.div_mul_le_self _ _
  have h2 : (k + 1) * chunk ≤ ((total + chunk - 1) / chunk) * chunk :=
    Nat.mul_le_mul_right _ hk
  rw [Nat.add_mul, Nat.one_mul] at h2
  generalize hA : k * chunk = A at *
  generalize hB : ((total + chunk - 1) / chunk) * chunk = B at *
  omega

lemma total_le_ceil_mul (total chunk : Nat) (hch : 0 < chunk) :
    total ≤ ((total + chunk - 1) / chunk) * chunk := by
  have h := Nat.div_add_mod (total + chunk - 1) chunk
  have hm : (total + chunk - 1) % chunk < chunk := Nat.mod_lt _ hch
  rw [Nat.mul_comm]
  generalize hA : chunk * ((total + chunk - 1) / chunk) = A at *
  generalize hR : (total + chunk - 1) % chunk = R at *
  omega

lemma mem_chunkStarts (total chunk k : Nat) (hk : k < (total + chunk - 1) / chunk) :
    k * chunk ∈ chunkStarts total chunk := by
  exact List.mem_map.mpr ⟨k, List.mem_range.mpr hk, rfl⟩

lemma emission_eq (buf : Nat → Nat) (needle : List Nat) (hlen : needle.length = 4)
    (a tl csize s : Nat) (hs : a + tl = s) :
    ((List.range (tl + csize + 1 - 4)).filterMap fun i : Nat =>
        if (((List.range' a (tl + csize)).map buf).drop i).take 4 = needle then
          some ((s : Int) + (i : Int) - (tl : Int))
        else none)
      = specSeg buf needle a (tl + csize + 1 - 4) := by
  subst hs
  have hcong : ∀ i ∈ List.range (tl + csize + 1 - 4),
      (if (((List.range' a (tl + csize)).map buf).drop i).take 4 = needle then
          some (((a + tl : Nat) : Int) + (i : Int) - (tl : Int))
        else none)
      = (if occursAt buf needle (a + i) then some (Int.ofNat (a + i)) else none) := by
    intro i hi
    have hi4 : i + 4 ≤ tl + csize := by
      have := List.mem_range.mp hi
      omega
    rw [map_range'_drop, map_range'_take]
    have hmin : min (tl + csize - i) 4 = 4 := by omega
    rw [hmin]
    by_cases hc : (List.range' (a + i) 4).map buf = needle
    · rw [if_pos hc, if_pos (by simp [occursAt, hlen, hc])]
      congr 1
      simp only [Int.ofNat_eq_natCast]
      push_cast
      ring
    · rw [if_neg hc, if_neg (by simp [occursAt, hlen, hc])]
  rw [List.filterMap_congr hcong]
  have hre : (List.range (tl + csize + 1 - 4)).filterMap
        (fun i => if occursAt buf needle (a + i) then some (Int.ofNat (a + i)) else none)
      = (List.range' a (tl + csize + 1 - 4)).filterMap
        (fun o => if occursAt buf needle o then some (Int.ofNat o) else none) := by
    rw [List.range'_eq_map_range, List.filterMap_map]
    rfl
  rw [hre, filterMap_if_eq_map_filter]
  rfl

lemma scanLoop_complete (m : Int → Nat) (ok : Int → Nat → Bool) (base : Int)
    (needle : List Nat) (total chunk : Nat) (hch : 0 < chunk) (hlen : needle.length = 4)
    (hok : ∀ s ∈ chunkStarts total chunk, ok (base + (s : Int)) (min chunk (total - s)) = true) :
    ∀ (r k : Nat), k + r = (total + chunk - 1) / chunk →
      scanLoop m ok base needle total chunk
          ((List.range' k r).map (· * chunk))
          ((List.range' (min (k * chunk) total - min 3 (min (k * chunk) total))
              (min 3 (min (k * chunk) total))).map (fun o : Nat => m (base + (o : Int))))
        = specSeg (fun o : Nat => m (base + (o : Int))) needle
            (min (k * chunk) total - min 3 (min (k * chunk) total))
            ((total + 1 - 4) - (min (k * chunk) total - min 3 (min (k * chunk) total))) := by
  intro r
  induction r with
  | zero =>
    intro k hk
    rw [Nat.add_zero] at hk
    subst hk
    have htot : total ≤ ((total + chunk - 1) / chunk) * chunk :=
      total_le_ceil_mul total chunk hch
    have he : min (((total + chunk - 1) / chunk) * chunk) total = total :=
      Nat.min_eq_right htot
    rw [he]
    have hX : (total + 1 - 4) - (total - min 3 total) = 0 := by omega
    rw [hX]
    rfl
  | succ r ih =>
    intro k hk
    have hkn : k < (total + chunk - 1) / chunk := by omega
    have hKt : k * chunk < total := start_lt_total total chunk k hch hkn
    have he : min (k * chunk) total = k * chunk := Nat.min_eq_left (Nat.le_of_lt hKt)
    rw [he]
    rw [List.range'_succ, List.map_cons]
    have hokk := hok (k * chunk) (mem_chunkStarts total chunk k hkn)
    rw [scanLoop_cons_ok m ok base needle total chunk (k * chunk) _ _ hokk]
    rw [hlen]
    rw [map_range_chunk m base (k * chunk) (min chunk (total - k * chunk))]
    rw [map_range'_append (fun o : Nat => m (base + (o : Int)))
        (k * chunk - min 3 (k * chunk)) (min 3 (k * chunk))
        (min chunk (total - k * chunk)) (k * chunk) (by omega)]
    simp only [List.length_map, List.length_range']
    rw [emission_eq (fun o : Nat => m (base + (o : Int))) needle hlen
        (k * chunk - min 3 (k * chunk)) (min 3 (k * chunk))
        (min chunk (total - k * chunk)) (k * chunk) (by omega)]
    rw [show (4 : Nat) - 1 = 3 from rfl]
    rw [map_range'_drop (fun o : Nat => m (base + (o : Int)))
        (k * chunk - min 3 (k * chunk))
        (min 3 (k * chunk) + min chunk (total - k * chunk))
        (min 3 (k * chunk) + min chunk (total - k * chunk) - 3)]
    have IH := ih (k + 1) (by omega)
    rw [Nat.add_mul, Nat.one_mul] at IH
    have h1 : k * chunk - min 3 (k * chunk) +
        (min 3 (k * chunk) + min chunk (total - k * chunk) - 3) =
        min (k * chunk + chunk) total - min 3 (min (k * chunk + chunk) total) := by
      omega
    have h2 : min 3 (k * chunk) + min chunk (total - k * chunk) -
        (min 3 (k * chunk) + min chunk (total - k * chunk) - 3) =
        min 3 (min (k * chunk + chunk) total) := by
      omega
    rw [h1, h2, IH]
    have hE2 : min (k * chunk + chunk) total - min 3 (min (k * chunk + chunk) total) =
        (k * chunk - min 3 (k * chunk)) +
          (min 3 (k * chunk) + min chunk (total - k * chunk) + 1 - 4) := by
      omega
    rw [hE2, specSeg_append]
    congr 1
    omega

lemma specSeg_pairwise (buf : Nat → Nat) (needle : List Nat) (a n : Nat) :
    List.Pairwise (· < ·) (specSeg buf needle a n) := by
  unfold specSeg
  rw [List.pairwise_map]
  exact (List.Pairwise.filter _ (List.pairwise_lt_range' a n)).imp
    (fun h => Int.ofNat_lt.mpr h)

lemma mem_specOffsets (buf : Nat → Nat) (needle : List Nat) (hlen : needle.length = 4)
    (total o : Nat) :
    ((o : Int) ∈ specOffsets buf needle total) ↔
      (o + 4 ≤ total ∧ (List.range' o 4).map buf = needle) := by
  unfold specOffsets specSeg
  rw [hlen]
  simp only [List.mem_map, List.mem_filter, List.mem_range'_1, occursAt, hlen,
    decide_eq_true_eq, Int.ofNat_eq_natCast, Nat.cast_inj]
  constructor
  · rintro ⟨o', ⟨⟨_, h2⟩, hocc⟩, rfl⟩
    exact ⟨by omega, hocc⟩
  · rintro ⟨h1, h2⟩
    exact ⟨o, ⟨⟨Nat.zero_le _, by omega⟩, h2⟩, rfl⟩

lemma scanLoop_found (m : Int → Nat) (ok : Int → Nat → Bool) (base : Int)
    (needle : List Nat) (total chunk : Nat) (hlen : needle.length = 4) :
    ∀ (starts : List Nat) (tail : List Nat) (s : Nat), s ∈ starts →
      ok (base + (s : Int)) (min chunk (total - s)) = true →
      ∀ o : Nat, s ≤ o → o + 4 ≤ s + min chunk (total - s) →
      (List.range' o 4).map (fun j : Nat => m (base + (j : Int))) = needle →
      ((o : Int) ∈ scanLoop m ok base needle total chunk starts tail) := by
  intro starts
  induction starts with
  | nil => intro tail s hs; simp at hs
  | cons s₀ rest ih =>
    intro tail s hs hok o hso ho4 hocc
    rcases List.mem_cons.mp hs with rfl | hs'
    · rw [scanLoop_cons_ok m ok base needle total chunk s rest tail hok]
      apply List.mem_append_left
      apply List.mem_filterMap.mpr
      refine ⟨tail.length + (o - s), ?_, ?_⟩
      · apply List.mem_range.mpr
        simp only [List.length_append, List.length_map, List.length_range, hlen]
        omega
      · have hdrop : (tail ++ (List.range (min chunk (total - s))).map
              (fun i : Nat => m (base + (s : Int) + (i : Int)))).drop (tail.length + (o - s))
            = ((List.range (min chunk (total - s))).map
                (fun i : Nat => m (base + (s : Int) + (i : Int)))).drop (o - s) := by
          rw [← List.drop_drop, List.drop_left]
        rw [hdrop, map_range_chunk, map_range'_drop, hlen, map_range'_take]
        have hmin : min (min chunk (total - s) - (o - s)) 4 = 4 := by omega
        have hso' : s + (o - s) = o := by omega
        rw [hmin, hso', if_pos hocc]
        congr 1
        omega
    · by_cases hok₀ : ok (base + (s₀ : Int)) (min chunk (total - s₀)) = true
      · rw [scanLoop_cons_ok m ok base needle total chunk s₀ rest tail hok₀]
        apply List.mem_append_right
        exact ih _ s hs' hok o hso ho4 hocc
      · rw [scanLoop_cons_fail m ok base needle total chunk s₀ rest tail
            (by simpa using hok₀)]
        exact ih tail s hs' hok o hso ho4 hocc

lemma scanLoop_ranges (m : Int → Nat) (ok : Int → Nat → Bool) (base : Int)
    (needle : List Nat) (total chunk : Nat) (hlen : needle.length = 4) :
    ∀ (starts : List Nat) (tail : List Nat), tail.length ≤ 3 →
      ∀ x ∈ scanLoop m ok base needle total chunk starts tail,
        ∃ s ∈ starts, ok (base + (s : Int)) (min chunk (total - s)) = true ∧
          (s : Int) - 3 ≤ x ∧ x ≤ (s : Int) + ((min chunk (total - s) : Nat) : Int) - 4 := by
  intro starts
  induction starts with
  | nil =>
    intro tail _ x hx
    rw [show scanLoop m ok base needle total chunk [] tail = [] from rfl] at hx
    exact absurd hx (List.not_mem_nil x)
  | cons s₀ rest ih =>
    intro tail htl x hx
    by_cases hok₀ : ok (base + (s₀ : Int)) (min chunk (total - s₀)) = true
    · rw [scanLoop_cons_ok m ok base needle total chunk s₀ rest tail hok₀] at hx
      rcases List.mem_append.mp hx with hx | hx
      · obtain ⟨i, hi, hfi⟩ := List.mem_filterMap.mp hx
        have hi' := List.mem_range.mp hi
        simp only [List.length_append, List.length_map, List.length_range, hlen] at hi'
        split_ifs at hfi with hc
        have hxv := Option.some_inj.mp hfi
        refine ⟨s₀, List.mem_cons_self _ _, hok₀, ?_, ?_⟩ <;> omega
      · have htl' : ((tail ++ (List.range (min chunk (total - s₀))).map
              (fun i : Nat => m (base + (s₀ : Int) + (i : Int)))).drop
            ((tail ++ (List.range (min chunk (total - s₀))).map
                (fun i : Nat => m (base + (s₀ : Int) + (i : Int)))).length
              - (needle.length - 1))).length ≤ 3 := by
          simp only [List.length_drop, List.length_append, List.length_map,
            List.length_range, hlen]
          omega
        obtain ⟨s, hsmem, hokr, hb1, hb2⟩ := ih _ htl' x hx
        exact ⟨s, List.mem_cons_of_mem _ hsmem, hokr, hb1, hb2⟩
    · rw [scanLoop_cons_fail m ok base needle total chunk s₀ rest tail
          (by simpa using hok₀)] at hx
      obtain ⟨s, hsmem, hokr, hb1, hb2⟩ := ih tail htl x hx
      exact ⟨s, List.mem_cons_of_mem _ hsmem, hokr, hb1, hb2⟩

/-! ### Codec lemmas -/

lemma encodeParts_isSome :
    ∀ (parts : List (List Char)) (i : Nat),
      (encodeParts i parts).isSome = true ↔ ∀ p ∈ parts, (pyInt p).isSome = true := by
  intro parts
  induction parts with
  | nil => intro i; simp [encodeParts]
  | cons p rest ih =>
    intro i
    constructor
    · intro h q hq
      cases hp : pyInt p with
      | none =>
        rw [show encodeParts i (p :: rest) = none by simp [encodeParts, hp]] at h
        simp at h
      | some n =>
        cases he : encodeParts (i + 1) rest with
        | none =>
          rw [show encodeParts i (p :: rest) = none by simp [encodeParts, hp, he]] at h
          simp at h
        | some tl =>
          rcases List.mem_cons.mp hq with rfl | hq
          · simp [hp]
          · exact (ih (i + 1)).mp (by simp [he]) q hq
    · intro hall
      have hp : (pyInt p).isSome = true := hall p (List.mem_cons_self _ _)
      obtain ⟨n, hn⟩ := Option.isSome_iff_exists.mp hp
      have hrest : (encodeParts (i + 1) rest).isSome = true :=
        (ih (i + 1)).mpr fun q hq => hall q (List.mem_cons_of_mem _ hq)
      obtain ⟨tl, htl⟩ := Option.isSome_iff_exists.mp hrest
      simp [encodeParts, hn, htl]

lemma parseDigits_eq_some {A : List Char} {a : Nat} (h : parseDigits A = some a) :
    A ≠ [] ∧ ∀ ch ∈ A, ch.isDigit = true := by
  unfold parseDigits at h
  split_ifs at h with hc
  · refine ⟨hc.1, fun ch hch => ?_⟩
    have := hc.2
    rw [List.all_eq_true] at this
    exact this ch hch

lemma digit_ne_dot {ch : Char} (h : ch.isDigit = true) : ch ≠ '.' := by
  intro he
  rw [he] at h
  exact absurd h (by decide)

lemma pyInt_of_parseDigits {A : List Char} {a : Nat} (h : parseDigits A = some a) :
    pyInt A = some ((a : Nat) : Int) := by
  obtain ⟨hne, hdig⟩ := parseDigits_eq_some h
  cases A with
  | nil => exact absurd rfl hne
  | cons c rest =>
    have hcdig : c.isDigit = true := hdig c (List.mem_cons_self _ _)
    have hcm : c ≠ '-' := by
      intro heq
      rw [heq] at hcdig
      exact absurd hcdig (by decide)
    have hcp : c ≠ '+' := by
      intro heq
      rw [heq] at hcdig
      exact absurd hcdig (by decide)
    simp only [pyInt]
    rw [if_neg hcm, if_neg hcp, h]
    rfl

lemma splitOnAux_append (sep : Char) :
    ∀ (l acc rest : List Char), (∀ ch ∈ l, ch ≠ sep) →
      splitOnAux sep (l ++ sep :: rest) acc =
        (acc.reverse ++ l) :: splitOnAux sep rest [] := by
  intro l
  induction l with
  | nil =>
    intro acc rest _
    simp [splitOnAux]
  | cons c l' ih =>
    intro acc rest hall
    have hc : c ≠ sep := hall c (List.mem_cons_self _ _)
    have hstep : splitOnAux sep ((c :: l') ++ sep :: rest) acc =
        splitOnAux sep (l' ++ sep :: rest) (c :: acc) := by
      simp only [List.cons_append, splitOnAux, if_neg hc]
      rfl
    rw [hstep, ih (c :: acc) rest (fun ch h => hall ch (List.mem_cons_of_mem _ h))]
    simp

lemma splitOnAux_last (sep : Char) :
    ∀ (l acc : List Char), (∀ ch ∈ l, ch ≠ sep) →
      splitOnAux sep l acc = [acc.reverse ++ l] := by
  intro l
  induction l with
  | nil =>
    intro acc _
    simp [splitOnAux]
  | cons c l' ih =>
    intro acc hall
    have hc : c ≠ sep := hall c (List.mem_cons_self _ _)
    simp only [splitOnAux, if_neg hc]
    rw [ih (c :: acc) (fun ch h => hall ch (List.mem_cons_of_mem _ h))]
    simp

lemma splitOnDot_four (A B C D : List Char)
    (hA : ∀ ch ∈ A, ch ≠ '.') (hB : ∀ ch ∈ B, ch ≠ '.')
    (hC : ∀ ch ∈ C, ch ≠ '.') (hD : ∀ ch ∈ D, ch ≠ '.') :
    splitOnDot (A ++ '.' :: (B ++ '.' :: (C ++ '.' :: D))) = [A, B, C, D] := by
  unfold splitOnDot
  rw [splitOnAux_append '.' A [] _ hA, splitOnAux_append '.' B [] _ hB,
    splitOnAux_append '.' C [] _ hC, splitOnAux_last '.' D [] hD]
  simp

lemma hex_width_one : ∀ a : Nat, a < 16 →
    zfill (toHexStr ((a : Nat) : Int)) 1 = [Nat.digitChar a] := by decide

set_option maxRecDepth 8192 in
lemma hex_width_two : ∀ b : Nat, b < 256 →
    zfill (toHexStr ((b : Nat) : Int)) 2 =
      [Nat.digitChar (b / 16), Nat.digitChar (b % 16)] := by decide

/-! ### Claim theorems -/

/-- C3: the patcher re-reads each candidate in scan order and the
re-read decides, in both directions.  Forward (the step laws, which with
the nil case characterize the loop completely): a value equal to
`target_hex` IS skipped with nothing written; a value equal to
`default_hex` IS overwritten with `target_hex` (the write is recorded
and the remaining offsets run on the written memory); any other value
DOES raise the version-mismatch exception immediately, returning the
memory as-is with no later offset read or written.  Globally (only-if):
the final memory is exactly the accumulated writes (no rollback), every
write stored `target_hex` at a candidate whose re-read was
`default_hex`, and on failure the whole result equals the run on the
offsets up to and including the failing one. -/
theorem patcher_policy (base : Int) (d t : Nat) (offsets : List Int) (m : Int → Nat) :
    (patchRun base d t offsets m).mem = applyWrites m (patchRun base d t offsets m).writes
    ∧ (∀ k av, (patchRun base d t offsets m).writes[k]? = some av →
        av.2 = t ∧ (∃ o ∈ offsets, av.1 = base + o)
        ∧ read_uint (applyWrites m ((patchRun base d t offsets m).writes.take k)) av.1 = d)
    ∧ (∀ o, (patchRun base d t offsets m).failed = some o →
        ∃ k, ∃ hk : k < offsets.length, offsets.get ⟨k, hk⟩ = o
          ∧ read_uint (patchRun base d t offsets m).mem (base + o) ≠ t
          ∧ read_uint (patchRun base d t offsets m).mem (base + o) ≠ d
          ∧ patchRun base d t (offsets.take (k + 1)) m = patchRun base d t offsets m)
    ∧ patchRun base d t [] m = ⟨m, [], none⟩
    ∧ (∀ (o : Int) (rest : List Int) (m' : Int → Nat),
        read_uint m' (base + o) = t →
        patchRun base d t (o :: rest) m' = patchRun base d t rest m')
    ∧ (∀ (o : Int) (rest : List Int) (m' : Int → Nat),
        read_uint m' (base + o) ≠ t → read_uint m' (base + o) = d →
        patchRun base d t (o :: rest) m' =
          ⟨(patchRun base d t rest (write_uint m' (base + o) t)).mem,
            (base + o, t) :: (patchRun base d t rest (write_uint m' (base + o) t)).writes,
            (patchRun base d t rest (write_uint m' (base + o) t)).failed⟩)
    ∧ (∀ (o : Int) (rest : List Int) (m' : Int → Nat),
        read_uint m' (base + o) ≠ t → read_uint m' (base + o) ≠ d →
        patchRun base d t (o :: rest) m' = ⟨m', [], some o⟩) :=
  ⟨patchRun_mem_eq base d t offsets m,
   fun k av h => patchRun_writes_spec base d t offsets m k av h,
   fun o h => patchRun_failed_spec base d t offsets m o h,
   rfl,
   fun o rest m' h => patchRun_cons_skip base d t o rest m' h,
   fun o rest m' h1 h2 => patchRun_cons_write base d t o rest m' h1 h2,
   fun o rest m' h1 h2 => patchRun_cons_fail base d t o rest m' h1 h2⟩

/-- Witness for C3 at concrete patch runs on `memPatch` (default
`0x63090621` at offset 4, target `0x63090c33` at offset 8, zero
elsewhere).  The theorem's laws are applied at these inputs, and the
concrete outcomes are fixed by evaluation: on `[4, 8]` the
default-valued offset 4 IS written (history `[(4, target)]`, no
failure, the cell re-reads as target afterwards) and the
already-target offset 8 is skipped; on `[0, 4]` the unexpected value
at offset 0 raises at once (history empty, memory untouched, the
later default-valued offset 4 never written). -/
theorem patcher_policy_witness :
    ((patchRun 0 0x63090621 0x63090c33 [4, 8] memPatch).mem
        = applyWrites memPatch (patchRun 0 0x63090621 0x63090c33 [4, 8] memPatch).writes)
    ∧ (patchRun 0 0x63090621 0x63090c33 ((4 : Int) :: [8]) memPatch =
        ⟨(patchRun 0 0x63090621 0x63090c33 [8] (write_uint memPatch (0 + 4) 0x63090c33)).mem,
          (0 + 4, 0x63090c33) ::
            (patchRun 0 0x63090621 0x63090c33 [8] (write_uint memPatch (0 + 4) 0x63090c33)).writes,
          (patchRun 0 0x63090621 0x63090c33 [8] (write_uint memPatch (0 + 4) 0x63090c33)).failed⟩)
    ∧ (patchRun 0 0x63090621 0x63090c33 ((0 : Int) :: [4]) memPatch = ⟨memPatch, [], some 0⟩)
    ∧ (patchRun 0 0x63090621 0x63090c33 [4, 8] memPatch).writes = [(4, 0x63090c33)]
    ∧ (patchRun 0 0x63090621 0x63090c33 [4, 8] memPatch).failed = none
    ∧ read_uint (patchRun 0 0x63090621 0x63090c33 [4, 8] memPatch).mem 4 = 0x63090c33
    ∧ read_uint (patchRun 0 0x63090621 0x63090c33 [4, 8] memPatch).mem 8 = 0x63090c33
    ∧ (patchRun 0 0x63090621 0x63090c33 [0, 4] memPatch).writes = []
    ∧ (patchRun 0 0x63090621 0x63090c33 [0, 4] memPatch).failed = some 0
    ∧ read_uint (patchRun 0 0x63090621 0x63090c33 [0, 4] memPatch).mem 4 = 0x63090621 :=
  ⟨(patcher_policy 0 0x63090621 0x63090c33 [4, 8] memPatch).1,
   (patcher_policy 0 0x63090621 0x63090c33 [4, 8] memPatch).2.2.2.2.2.1
     4 [8] memPatch (by decide) (by decide),
   (patcher_policy 0 0x63090621 0x63090c33 [4, 8] memPatch).2.2.2.2.2.2
     0 [4] memPatch (by decide) (by decide),
   by decide, by decide, by decide, by decide, by decide, by decide, by decide⟩

/-- C10 (frame property): the patcher changes no byte outside the 4-byte
cells at `base + offset` for candidate offsets; every performed write
stores `target_hex` at such a cell, and only after re-reading
`default_hex` there. -/
theorem patcher_frame (base : Int) (d t : Nat) (offsets : List Int) (m : Int → Nat) :
    (∀ x : Int, (∀ o ∈ offsets, ¬(base + o ≤ x ∧ x < base + o + 4)) →
      (patchRun base d t offsets m).mem x = m x)
    ∧ (∀ p ∈ (patchRun base d t offsets m).writes, p.2 = t ∧ ∃ o ∈ offsets, p.1 = base + o)
    ∧ (∀ k av, (patchRun base d t offsets m).writes[k]? = some av →
        read_uint (applyWrites m ((patchRun base d t offsets m).writes.take k)) av.1 = d) :=
  ⟨fun x hx => patchRun_frame base d t offsets m x hx,
   fun p hp => patchRun_writes_mem base d t offsets m p hp,
   fun k av h => (patchRun_writes_spec base d t offsets m k av h).2.2⟩

/-- Witness for C10 at a concrete patch run. -/
theorem patcher_frame_witness :
    (∀ x : Int, (∀ o ∈ ([4] : List Int), ¬((0 : Int) + o ≤ x ∧ x < 0 + o + 4)) →
      (patchRun 0 0x63090621 0x63090c33 [4] memPatch).mem x = memPatch x)
    ∧ (∀ p ∈ (patchRun 0 0x63090621 0x63090c33 [4] memPatch).writes,
        p.2 = 0x63090c33 ∧ ∃ o ∈ ([4] : List Int), p.1 = 0 + o)
    ∧ (∀ k av, (patchRun 0 0x63090621 0x63090c33 [4] memPatch).writes[k]? = some av →
        read_uint (applyWrites memPatch
          ((patchRun 0 0x63090621 0x63090c33 [4] memPatch).writes.take k)) av.1
        = 0x63090621) :=
  patcher_frame 0 0x63090621 0x63090c33 [4] memPatch

/-- C6: when the scan returns no offsets, `fake_version` raises the
offsets-not-found exception with the process memory untouched, and in
particular never reports successful completion. -/
theorem empty_scan_offsetsNotFound (modules : List Module) (m : Int → Nat)
    (ok : Int → Nat → Bool) (d t total chunk : Nat)
    (h : scan_for_offsets m ok (find_dll_base modules) d total chunk = []) :
    fake_version modules m ok d t total chunk = .offsetsNotFound m
    ∧ ∀ m' ws, fake_version modules m ok d t total chunk ≠ .done m' ws := by
  have h1 : fake_version modules m ok d t total chunk = .offsetsNotFound m := by
    simp [fake_version, h]
  refine ⟨h1, fun m' ws hc => ?_⟩
  rw [h1] at hc
  exact FVResult.noConfusion hc

/-- Witness for C6: an all-zero region contains no copy of `0x01010101`,
so the pipeline stops with the offsets-not-found exception. -/
theorem empty_scan_offsetsNotFound_witness :
    fake_version [] memZero okAll 16843009 1 8 4 = .offsetsNotFound memZero
    ∧ ∀ m' ws, fake_version [] memZero okAll 16843009 1 8 4 ≠ .done m' ws :=
  empty_scan_offsetsNotFound [] memZero okAll 16843009 1 8 4 (by decide)

/-- C5 counterexample: with no module ending in `"WeChatWin.dll"`, the
code does NOT fail at module location; `dll_base` stays `0` and the
pipeline proceeds to scan at base 0, failing only later (here with the
offsets-not-found exception).  There is no module-not-found failure in
the code. -/
theorem no_module_match_proceeds :
    find_dll_base [otherModule] = 0
    ∧ fake_version [otherModule] memZero okAll 16843009 1 8 4 = .offsetsNotFound memZero :=
  ⟨by decide, by rfl⟩

/-- C5 amended: the first module whose path ends with `"WeChatWin.dll"`
provides the base address; when no module matches, the base stays `0`
and `fake_version` behaves exactly as with an empty module list,
proceeding to scan from base 0 instead of failing. -/
theorem module_locator_first_match :
    (∀ (pre : List Module) (md : Module) (post : List Module),
        (∀ md' ∈ pre, wechatWinDll.isSuffixOf md'.filename = false) →
        wechatWinDll.isSuffixOf md.filename = true →
        find_dll_base (pre ++ md :: post) = md.lpBaseOfDll)
    ∧ (∀ mods : List Module,
        (∀ md' ∈ mods, wechatWinDll.isSuffixOf md'.filename = false) →
        find_dll_base mods = 0)
    ∧ (∀ (mods : List Module) (m : Int → Nat) (ok : Int → Nat → Bool) (d t total chunk : Nat),
        (∀ md' ∈ mods, wechatWinDll.isSuffixOf md'.filename = false) →
        fake_version mods m ok d t total chunk = fake_version [] m ok d t total chunk) := by
  have hnone : ∀ mods : List Module,
      (∀ md' ∈ mods, wechatWinDll.isSuffixOf md'.filename = false) →
      find_dll_base mods = 0 := by
    intro mods
    induction mods with
    | nil => intro _; rfl
    | cons md rest ih =>
      intro hall
      have hmd := hall md (List.mem_cons_self _ _)
      simp only [find_dll_base, hmd]
      exact ih fun md' h => hall md' (List.mem_cons_of_mem _ h)
  refine ⟨?_, hnone, ?_⟩
  · intro pre
    induction pre with
    | nil =>
      intro md post _ hmd
      simp [find_dll_base, hmd]
    | cons p pre' ih =>
      intro md post hall hmd
      have hp := hall p (List.mem_cons_self _ _)
      simp only [List.cons_append, find_dll_base, hp, Bool.false_eq_true, if_false]
      exact ih md post (fun md' h => hall md' (List.mem_cons_of_mem _ h)) hmd
  · intro mods m ok d t total chunk hall
    unfold fake_version
    rw [hnone mods hall]
    rfl

/-- Witness for C5's amended claim. -/
theorem module_locator_first_match_witness :
    find_dll_base [otherModule, wcModule] = wcModule.lpBaseOfDll :=
  module_locator_first_match.1 [otherModule] wcModule [] (by decide) (by decide)

/-- C2 (code bug): after window 1 fails to read, `previous_chunk_tail`
is NOT reset; the stale tail `[9,1,2]` of window 0 is prepended to
window 2's bytes `[3,4,9,9]`, fabricating a match reported at offset 6 —
inside the unreadable window — although the needle `[1,2,3,4]`
(`0x04030201` little-endian) occurs nowhere in the region. -/
theorem stale_tail_misreport :
    scan_for_offsets memStale okStale 0 67305985 12 4 = [6]
    ∧ occursAt (fun o : Nat => memStale o) (to_bytes_le 67305985 4) 6 = false
    ∧ specOffsets (fun o : Nat => memStale o) (to_bytes_le 67305985 4) 12 = [] :=
  ⟨by decide, by decide, by decide⟩

/-- C8 counterexample: `"3.9.6.33"` does not encode to `"63090633"` —
the last component is rendered in hexadecimal (`33 → "21"`). -/
theorem codec_3_9_6_33_ne_spec_value :
    convert_version_to_hex "3.9.6.33".toList ≠ some "63090633".toList := by decide

/-- C8 amended: `"3.9.6.33"` encodes to `"63090621"` (`0x63090621`):
`"6" + "3" + "09" + "06" + "21"`, each trailing component in
zero-padded 2-digit hex. -/
theorem codec_3_9_6_33_value :
    convert_version_to_hex "3.9.6.33".toList = some "63090621".toList := by decide

/-- C9 counterexample: a 3-component version string is NOT rejected —
the component count is never checked; `"1.2.3"` encodes to the 6-digit
string `"610203"`. -/
theorem codec_three_components_succeeds :
    convert_version_to_hex "1.2.3".toList = some "610203".toList := by decide

/-- C9 amended: encoding succeeds exactly when every dot-separated
component parses as a Python int (a ValueError from `int(part)` is the
only failure); the number of components is not validated. -/
theorem codec_validation (v : List Char) :
    (convert_version_to_hex v).isSome = true ↔
      ∀ p ∈ splitOnDot v, (pyInt p).isSome = true := by
  unfold convert_version_to_hex
  rw [Option.isSome_map']
  exact encodeParts_isSome (splitOnDot v) 0

/-- Witness for C9's amended claim at a concrete input. -/
theorem codec_validation_witness :
    (convert_version_to_hex "1.2".toList).isSome = true ↔
      ∀ p ∈ splitOnDot "1.2".toList, (pyInt p).isSome = true :=
  codec_validation "1.2".toList

/-- C1 (scanner completeness): when every chunk read succeeds, the scan
returns exactly the ascending list of offsets in `[0, total)` at which
the 4 little-endian needle bytes occur (including occurrences spanning a
chunk boundary, at their correct relative offset). -/
theorem scan_for_offsets_complete (m : Int → Nat) (ok : Int → Nat → Bool) (base : Int)
    (hexv total chunk : Nat) (hch : 0 < chunk)
    (hok : ∀ s ∈ chunkStarts total chunk, ok (base + (s : Int)) (min chunk (total - s)) = true) :
    scan_for_offsets m ok base hexv total chunk
        = specOffsets (fun o : Nat => m (base + (o : Int))) (to_bytes_le hexv 4) total
    ∧ List.Pairwise (· < ·) (scan_for_offsets m ok base hexv total chunk)
    ∧ (∀ o : Nat, ((o : Int) ∈ scan_for_offsets m ok base hexv total chunk ↔
        (o + 4 ≤ total ∧
          (List.range' o 4).map (fun j : Nat => m (base + (j : Int)))
            = to_bytes_le hexv 4))) := by
  have hlen : (to_bytes_le hexv 4).length = 4 := by simp [to_bytes_le]
  have hmain : scan_for_offsets m ok base hexv total chunk
      = specOffsets (fun o : Nat => m (base + (o : Int))) (to_bytes_le hexv 4) total := by
    have H := scanLoop_complete m ok base (to_bytes_le hexv 4) total chunk hch hlen hok
      ((total + chunk - 1) / chunk) 0 (by omega)
    simp only [Nat.zero_mul, Nat.zero_min, Nat.min_zero, Nat.sub_self, Nat.sub_zero,
      List.range'_zero, List.map_nil] at H
    unfold scan_for_offsets chunkStarts
    rw [List.range_eq_range', H]
    unfold specOffsets
    rw [hlen]
  refine ⟨hmain, ?_, ?_⟩
  · rw [hmain]
    exact specSeg_pairwise _ _ _ _
  · intro o
    rw [hmain]
    exact mem_specOffsets (fun o : Nat => m (base + (o : Int))) (to_bytes_le hexv 4)
      hlen total o

/-- Witness for C1: an 8-byte region scanned in two 4-byte chunks, with
the needle `[1,2,3,4]` spanning the last byte of chunk 0 and the first 3
bytes of chunk 1; the scan reports exactly offset 3. -/
theorem scan_for_offsets_complete_witness :
    (scan_for_offsets memSpan okAll 0 67305985 8 4
        = specOffsets (fun o : Nat => memSpan (0 + (o : Int))) (to_bytes_le 67305985 4) 8
      ∧ List.Pairwise (· < ·) (scan_for_offsets memSpan okAll 0 67305985 8 4)
      ∧ (∀ o : Nat, ((o : Int) ∈ scan_for_offsets memSpan okAll 0 67305985 8 4 ↔
          (o + 4 ≤ 8 ∧
            (List.range' o 4).map (fun j : Nat => memSpan (0 + (j : Int)))
              = to_bytes_le 67305985 4))))
    ∧ scan_for_offsets memSpan okAll 0 67305985 8 4 = [3] :=
  ⟨scan_for_offsets_complete memSpan okAll 0 67305985 8 4 (by decide) (by decide),
   by decide⟩

/-- C4: a failed chunk read is non-fatal.  Any offset pointing at a
needle position wholly inside an unreadable window is absent from the
result, while every needle occurrence lying wholly inside a readable
window is still reported — scanning continues past the failed window. -/
theorem scan_skip_window (m : Int → Nat) (ok : Int → Nat → Bool) (base : Int)
    (hexv total chunk : Nat) (_hch : 0 < chunk) :
    (∀ s ∈ chunkStarts total chunk,
      ok (base + (s : Int)) (min chunk (total - s)) = false →
      ∀ o : Nat, s ≤ o → o + 4 ≤ s + min chunk (total - s) →
        ((o : Int) ∉ scan_for_offsets m ok base hexv total chunk))
    ∧ (∀ s ∈ chunkStarts total chunk,
      ok (base + (s : Int)) (min chunk (total - s)) = true →
      ∀ o : Nat, s ≤ o → o + 4 ≤ s + min chunk (total - s) →
        (List.range' o 4).map (fun j : Nat => m (base + (j : Int))) = to_bytes_le hexv 4 →
        ((o : Int) ∈ scan_for_offsets m ok base hexv total chunk)) := by
  have hlen : (to_bytes_le hexv 4).length = 4 := by simp [to_bytes_le]
  constructor
  · intro s hs hfail o hso ho4 hmem
    obtain ⟨s', hs', hok', hb1, hb2⟩ := scanLoop_ranges m ok base (to_bytes_le hexv 4)
      total chunk hlen (chunkStarts total chunk) [] (by simp) ((o : Int)) hmem
    simp only [chunkStarts, List.mem_map, List.mem_range] at hs hs'
    obtain ⟨j, hj, hjs⟩ := hs
    obtain ⟨j', hj', hjs'⟩ := hs'
    have hne : j ≠ j' := by
      intro h
      rw [h, hjs'] at hjs
      subst hjs
      rw [hok'] at hfail
      exact Bool.noConfusion hfail
    rcases Nat.lt_or_ge j j' with hlt | hge
    · have hmul : (j + 1) * chunk ≤ j' * chunk := Nat.mul_le_mul_right chunk hlt
      rw [Nat.add_mul, Nat.one_mul, hjs, hjs'] at hmul
      have hcs : min chunk (total - s) ≤ chunk := Nat.min_le_left _ _
      omega
    · have hlt' : j' < j := by omega
      have hmul : (j' + 1) * chunk ≤ j * chunk := Nat.mul_le_mul_right chunk hlt'
      rw [Nat.add_mul, Nat.one_mul, hjs, hjs'] at hmul
      have hcs' : min chunk (total - s') ≤ chunk := Nat.min_le_left _ _
      omega
  · intro s hs hok' o hso ho4 hocc
    exact scanLoop_found m ok base (to_bytes_le hexv 4) total chunk hlen
      (chunkStarts total chunk) [] s hs hok' o hso ho4 hocc

/-- C7 (codec format): for components `a ≤ 15`, `b, c, d ≤ 255` given as
decimal digit strings, encoding `"a.b.c.d"` succeeds and returns the
8-hex-digit string `'6'`, then `a` as one hex digit, then `b`, `c`, `d`
as zero-padded 2-digit hex; the first character is `'6'` and the total
width is 8.  (The function is pure by construction, so repeated calls
trivially agree.) -/
theorem codec_format (A B C D : List Char) (a b c d : Nat)
    (hA : parseDigits A = some a) (hB : parseDigits B = some b)
    (hC : parseDigits C = some c) (hD : parseDigits D = some d)
    (ha : a ≤ 15) (hb : b ≤ 255) (hc : c ≤ 255) (hd : d ≤ 255) :
    convert_version_to_hex (A ++ '.' :: (B ++ '.' :: (C ++ '.' :: D)))
      = some ['6', Nat.digitChar a,
          Nat.digitChar (b / 16), Nat.digitChar (b % 16),
          Nat.digitChar (c / 16), Nat.digitChar (c % 16),
          Nat.digitChar (d / 16), Nat.digitChar (d % 16)]
    ∧ (['6', Nat.digitChar a, Nat.digitChar (b / 16), Nat.digitChar (b % 16),
          Nat.digitChar (c / 16), Nat.digitChar (c % 16),
          Nat.digitChar (d / 16), Nat.digitChar (d % 16)] : List Char).length = 8
    ∧ (['6', Nat.digitChar a, Nat.digitChar (b / 16), Nat.digitChar (b % 16),
          Nat.digitChar (c / 16), Nat.digitChar (c % 16),
          Nat.digitChar (d / 16), Nat.digitChar (d % 16)] : List Char).head?
        = some '6' := by
  refine ⟨?_, rfl, rfl⟩
  have hAnd : ∀ ch ∈ A, ch ≠ '.' :=
    fun ch h => digit_ne_dot ((parseDigits_eq_some hA).2 ch h)
  have hBnd : ∀ ch ∈ B, ch ≠ '.' :=
    fun ch h => digit_ne_dot ((parseDigits_eq_some hB).2 ch h)
  have hCnd : ∀ ch ∈ C, ch ≠ '.' :=
    fun ch h => digit_ne_dot ((parseDigits_eq_some hC).2 ch h)
  have hDnd : ∀ ch ∈ D, ch ≠ '.' :=
    fun ch h => digit_ne_dot ((parseDigits_eq_some hD).2 ch h)
  unfold convert_version_to_hex
  rw [splitOnDot_four A B C D hAnd hBnd hCnd hDnd]
  simp only [encodeParts, pyInt_of_parseDigits hA, pyInt_of_parseDigits hB,
    pyInt_of_parseDigits hC, pyInt_of_parseDigits hD, Option.some_bind]
  norm_num
  rw [hex_width_one a (by omega), hex_width_two b (by omega),
    hex_width_two c (by omega), hex_width_two d (by omega)]
  rfl

/-- Witness for C7 at the components of `"3.9.6.33"`. -/
theorem codec_format_witness :
    convert_version_to_hex
        ("3".toList ++ '.' :: ("9".toList ++ '.' :: ("6".toList ++ '.' :: "33".toList)))
      = some ['6', Nat.digitChar 3,
          Nat.digitChar (9 / 16), Nat.digitChar (9 % 16),
          Nat.digitChar (6 / 16), Nat.digitChar (6 % 16),
          Nat.digitChar (33 / 16), Nat.digitChar (33 % 16)]
    ∧ (['6', Nat.digitChar 3, Nat.digitChar (9 / 16), Nat.digitChar (9 % 16),
          Nat.digitChar (6 / 16), Nat.digitChar (6 % 16),
          Nat.digitChar (33 / 16), Nat.digitChar (33 % 16)] : List Char).length = 8
    ∧ (['6', Nat.digitChar 3, Nat.digitChar (9 / 16), Nat.digitChar (9 % 16),
          Nat.digitChar (6 / 16), Nat.digitChar (6 % 16),
          Nat.digitChar (33 / 16), Nat.digitChar (33 % 16)] : List Char).head?
        = some '6' :=
  codec_format "3".toList "9".toList "6".toList "33".toList 3 9 6 33
    (by decide) (by decide) (by decide) (by decide)
    (by decide) (by decide) (by decide) (by decide)

/-- Witness for C4: with window 1 (offsets 4-7) unreadable, the needle
occurrence wholly inside it (offset 4) is absent while the occurrence
wholly inside readable window 2 (offset 8) is still found. -/
theorem scan_skip_window_witness :
    ((((4 : Nat) : Int)) ∉ scan_for_offsets memSkip okStale 0 67305985 12 4)
    ∧ ((((8 : Nat) : Int)) ∈ scan_for_offsets memSkip okStale 0 67305985 12 4) :=
  ⟨(scan_skip_window memSkip okStale 0 67305985 12 4 (by decide)).1 4 (by decide)
      (by decide) 4 (by decide) (by decide),
   (scan_skip_window memSkip okStale 0 67305985 12 4 (by decide)).2 8 (by decide)
      (by decide) 8 (by decide) (by decide) (by decide)⟩

end FakeWechat
